import Mathlib

/-!
Verification development for the jx activity garbage-collection retention
logic (`pkg/jx/cmd/gc_activities.go`) and for the prow pull-ref parser
(`prow.ParsePullRefs`; only its test is in the sources, so the parser is
modelled from the specification).

Modelling conventions:
* Timestamps and durations are integers counted in nanoseconds, mirroring
  Go's `time.Duration` unit; `time.Hour` is 3600000000000 ns.  The reads of
  `time.Now()` during a run are modelled by the single parameter `now`.
* Calls to the external activity store's `Delete` are modelled as a trace of
  `(name, reason)` pairs, tagged with the code path that issued the call;
  the store is assumed to accept every delete (collaborator failures are
  outside the modelled core).
* Go map iteration order is unspecified by the language, so the iteration
  over `activityBuilds` is modelled by an explicit `mapOrder` parameter;
  theorems constrain it to be a permutation where needed.
* `strconv.Atoi` is modelled including its 64-bit range check.
-/

namespace Jx

/-- Tag recording which code path of `Run` issued a deletion. -/
inductive Reason
  | ageExpired
  | orphaned
  | overLimit
  deriving DecidableEq, Repr

/-- Ways the modelled part of `Run` can abort: `strconv.Atoi` failure
(returned as an error) or an out-of-bounds slice read (a Go panic). -/
inductive GCError
  | conversionError (build : String)
  | indexPanic
  deriving DecidableEq, Repr

/-- The fields of a `PipelineActivity` item read by `Run`:
`a.Name`, `a.Spec.Pipeline`, `a.Spec.Build`, `a.Spec.CompletedTimestamp`. -/
structure PipelineActivity where
  name : String
  pipeline : String
  build : String
  completedAt : Option Int
  deriving DecidableEq, Repr

/-- Mutable state threaded through the first loop of `Run`: the trace of
deletions issued so far and the `activityBuilds` accumulator (a map from
pipeline to its build numbers, modelled as an insertion-ordered
association list). -/
structure GCState where
  deletions : List (String × Reason)
  builds : List (String × List Int)
  deriving DecidableEq, Repr

/-- Final outcome of `Run`: the full trace of deletions issued and the
error it returned (or panicked with), if any. -/
structure GCOutcome where
  deletions : List (String × Reason)
  err : Option GCError
  deriving DecidableEq, Repr

/-- `time.Hour` in nanoseconds. -/
def nsPerHour : Int := 3600000000000

/-- Decides whether `pat` occurs as a contiguous substring of `l`
(`strings.Contains`). -/
def hasInfixChars (pat l : List Char) : Bool :=
  l.tails.any (fun t => pat.isPrefixOf t)

/-- `strings.Contains(name, "-pr-")`. -/
def hasPRMarker (s : String) : Bool :=
  hasInfixChars "-pr-".toList s.toList

/-- The guard of the age-expiry branch:
`strings.Contains(a.Name, "-pr-") && a.Spec.CompletedTimestamp != nil &&
a.Spec.CompletedTimestamp.Add(time.Duration(prHours)*time.Hour).Before(now)`. -/
def ageCond (prHours now : Int) (a : PipelineActivity) : Bool :=
  hasPRMarker a.name &&
    (match a.completedAt with
     | none => false
     | some t => decide (t + prHours * nsPerHour < now))

/-- Value of a digit string, most significant first. -/
def digitsVal (l : List Char) : Nat :=
  l.foldl (fun acc c => acc * 10 + (c.toNat - 48)) 0

/-- Largest `int` value on a 64-bit platform. -/
def intMax : Int := 9223372036854775807

/-- Smallest `int` value on a 64-bit platform. -/
def intMin : Int := -9223372036854775808

/-- Digits-and-range part of `strconv.Atoi` after the optional sign. -/
def atoiCore (neg : Bool) (ds : List Char) : Option Int :=
  if ds = [] then none
  else if ds.all Char.isDigit then
    let v : Int := if neg then -(digitsVal ds : Int) else (digitsVal ds : Int)
    if intMin ≤ v ∧ v ≤ intMax then some v else none
  else none

/-- `strconv.Atoi`: optional sign, one or more decimal digits, value within
the 64-bit `int` range; `none` models a non-nil error. -/
def atoi (s : String) : Option Int :=
  match s.toList with
  | [] => none
  | c :: rest =>
    if c = '-' then atoiCore true rest
    else if c = '+' then atoiCore false rest
    else atoiCore false (c :: rest)

/-- Insert into an ascending list, keeping it ascending. -/
def insertSorted (n : Int) : List Int → List Int
  | [] => [n]
  | m :: rest => if n ≤ m then n :: m :: rest else m :: insertSorted n rest

/-- `sort.Ints`: ascending sort of the build numbers.  (The sorted output
of an integer slice is unique, so the choice of sorting algorithm does not
matter; insertion sort is used for a structurally recursive definition.) -/
def sortInts : List Int → List Int
  | [] => []
  | n :: rest => insertSorted n (sortInts rest)

/-- Name reconstruction for the revision-cap deletions:
`fmt.Sprintf("%s-%v", pipeline, build)` followed by
`strings.Replace(·, "/", "-", -1)`, `strings.Replace(·, "_", "-", -1)` and
`strings.ToLower` (ASCII case folding). -/
def replaceChar (t : Char) (s : String) : String :=
  String.mk (s.toList.map (fun c => if c = t then '-' else c))

/-- `strings.ToLower`, modelled as per-character ASCII lowering. -/
def lowerStr (s : String) : String :=
  String.mk (s.toList.map Char.toLower)

/-- The deletion target name built in the revision-cap loop. -/
def mkActivityName (pipeline : String) (b : Int) : String :=
  lowerStr (replaceChar '_' (replaceChar '/' (pipeline ++ "-" ++ toString b)))

/-- `activityBuilds[a.Spec.Pipeline] = append(activityBuilds[...], n)` on
the insertion-ordered association list. -/
def addBuild : List (String × List Int) → String → Int → List (String × List Int)
  | [], p, n => [(p, [n])]
  | (q, xs) :: rest, p, n =>
    if q = p then (q, xs ++ [n]) :: rest else (q, xs) :: addBuild rest p n

/-- The orphan branch: when prow is not enabled and the record's pipeline
matches no Jenkins job name, delete the record. -/
def orphanPass (prowEnabled : Bool) (jobNames : List String)
    (s : GCState) (a : PipelineActivity) : GCState :=
  if prowEnabled then s
  else if jobNames.contains a.pipeline then s
  else { s with deletions := s.deletions ++ [(a.name, Reason.orphaned)] }

/-- One iteration of the first loop of `Run` over a single activity:
age-expiry branch (with `continue`), orphan branch (without `continue`),
`strconv.Atoi`, and the `activityBuilds` append. -/
def gcStep (prowEnabled : Bool) (jobNames : List String) (prHours now : Int)
    (s : GCState) (a : PipelineActivity) : GCState × Option GCError :=
  if ageCond prHours now a then
    ({ s with deletions := s.deletions ++ [(a.name, Reason.ageExpired)] }, none)
  else
    let s1 := orphanPass prowEnabled jobNames s a
    match atoi a.build with
    | none => (s1, some (GCError.conversionError a.build))
    | some n => ({ s1 with builds := addBuild s1.builds a.pipeline n }, none)

/-- The first loop of `Run`, aborting at the first conversion error. -/
def gcLoop1 (prowEnabled : Bool) (jobNames : List String) (prHours now : Int) :
    GCState → List PipelineActivity → GCState × Option GCError
  | s, [] => (s, none)
  | s, a :: rest =>
    match gcStep prowEnabled jobNames prHours now s a with
    | (s1, some e) => (s1, some e)
    | (s1, none) => gcLoop1 prowEnabled jobNames prHours now s1 rest

/-- The inner revision-cap loop for one pipeline group, already sorted:
`i := 0; for i < len(builds)-limit { delete builds[i]; i++ }`.  The first
argument counts the remaining iterations, the second is `i`; a read past
the end of the slice is Go's bounds-check panic. -/
def capGo (pipeline : String) (sorted : List Int) :
    Nat → Nat → List (String × Reason) × Option GCError
  | 0, _ => ([], none)
  | n + 1, i =>
    match sorted[i]? with
    | none => ([], some GCError.indexPanic)
    | some b =>
      match capGo pipeline sorted n (i + 1) with
      | (ds, e) => ((mkActivityName pipeline b, Reason.overLimit) :: ds, e)

/-- The revision-cap treatment of one pipeline group: sort ascending, then
delete `builds[i]` for `i` from `0` while `i < len(builds) - limit`
(`len(builds) - limit` iterations in Go `int` arithmetic). -/
def capGroup (pipeline : String) (builds : List Int) (limit : Int) :
    List (String × Reason) × Option GCError :=
  capGo pipeline (sortInts builds) (((sortInts builds).length : Int) - limit).toNat 0

/-- The second loop of `Run` over the pipeline groups, stopping at a panic. -/
def gcLoop2 (limit : Int) : List (String × List Int) → List (String × Reason) × Option GCError
  | [] => ([], none)
  | g :: rest =>
    match capGroup g.1 g.2 limit with
    | (ds, some e) => (ds, some e)
    | (ds, none) =>
      match gcLoop2 limit rest with
      | (ds2, e2) => (ds ++ ds2, e2)

/-- The modelled part of `GCActivitiesOptions.Run`: the first loop over the
activity snapshot, then the loop over `activityBuilds`.  `mapOrder` supplies
the (language-unspecified) iteration order of the Go map. -/
def gcRun (prowEnabled : Bool) (jobNames : List String) (prHours limit now : Int)
    (mapOrder : List (String × List Int) → List (String × List Int))
    (activities : List PipelineActivity) : GCOutcome :=
  match gcLoop1 prowEnabled jobNames prHours now ⟨[], []⟩ activities with
  | (s, some e) => ⟨s.deletions, some e⟩
  | (s, none) =>
    match gcLoop2 limit (mapOrder s.builds) with
    | (ds, e2) => ⟨s.deletions ++ ds, e2⟩

/-- The deletions the first loop issues for one record, starting from an
empty state (the loop only ever appends, so this is the record's own
contribution). -/
def stepMarks (prowEnabled : Bool) (jobNames : List String) (prHours now : Int)
    (a : PipelineActivity) : List (String × Reason) :=
  ((gcStep prowEnabled jobNames prHours now ⟨[], []⟩ a).1).deletions

/-- Definition following the specification's words for the revision-cap
target name: "lowercase(pipeline + "-" + buildNumber) with every `/` and
`_` in the concatenation replaced by `-`". -/
def specTargetName (pipeline : String) (b : Int) : String :=
  lowerStr (String.mk ((pipeline ++ "-" ++ toString b).toList.map
    (fun c => if c = '/' ∨ c = '_' then '-' else c)))

end Jx

namespace Prow

/-- Errors of the modelled ref-set parser. -/
inductive RefParseError
  | emptyInput
  | noPairs
  | missingColon
  deriving DecidableEq, Repr

/-- Modelled from the spec: the decoded form of a pull-refs string
(`prow.PullRefs`); `toMerge` is kept as the list of pairs in input order. -/
structure PullRefs where
  baseBranch : String
  baseSha : String
  toMerge : List (String × String)
  deriving DecidableEq, Repr

/-- Split a character list on every occurrence of `c` (the comma split). -/
def splitOnChar (c : Char) : List Char → List (List Char)
  | [] => [[]]
  | x :: xs =>
    match splitOnChar c xs with
    | [] => [[]]
    | h :: t => if x = c then [] :: h :: t else (x :: h) :: t

/-- Split a pair on its first `:`; `none` when the pair has no `:`. -/
def splitPair : List Char → Option (List Char × List Char)
  | [] => none
  | x :: xs =>
    if x = ':' then some ([], xs)
    else
      match splitPair xs with
      | none => none
      | some (k, v) => some (x :: k, v)

/-- Parse the merge pairs following the base pair. -/
def parsePairs : List (List Char) → Option (List (String × String))
  | [] => some []
  | p :: ps =>
    match splitPair p, parsePairs ps with
    | some (k, v), some rest => some ((String.mk k, String.mk v) :: rest)
    | _, _ => none

/-- Modelled from the spec: `prow.ParsePullRefs` (implementation absent
from the sources; only its test is present).  Comma-separated `key:value`
pairs, each split on its first `:`; the first pair is the base branch and
sha, the rest populate `toMerge`; empty input, a missing pair, or a pair
without `:` is a parse error. -/
def parsePullRefs (s : String) : Except RefParseError PullRefs :=
  if s.toList = [] then Except.error RefParseError.emptyInput
  else
    match splitOnChar ',' s.toList with
    | [] => Except.error RefParseError.noPairs
    | base :: rest =>
      match splitPair base with
      | none => Except.error RefParseError.missingColon
      | some (bb, bs) =>
        match parsePairs rest with
        | none => Except.error RefParseError.missingColon
        | some ms => Except.ok ⟨String.mk bb, String.mk bs, ms⟩

/-- Encoding of one `key:value` pair. -/
def encodePair (kv : String × String) : List Char :=
  kv.1.toList ++ ':' :: kv.2.toList

/-- Join parts with a separator character. -/
def joinWith (c : Char) : List (List Char) → List Char
  | [] => []
  | [p] => p
  | p :: ps => p ++ c :: joinWith c ps

/-- The encoded form `"k0:v0,k1:v1,...,kN:vN"` of a base pair followed by
merge pairs. -/
def encodeRefs (base : String × String) (merges : List (String × String)) : String :=
  String.mk (joinWith ',' ((base :: merges).map encodePair))

end Prow

namespace Jx

/-! ### Basic lemmas about the embedded operations -/

theorem toList_mk (l : List Char) : (String.mk l).toList = l := rfl

theorem mk_toList (s : String) : String.mk s.toList = s := rfl

theorem ageCond_iff (ph now : Int) (a : PipelineActivity) :
    ageCond ph now a = true ↔
      (hasPRMarker a.name = true ∧
        ∃ t, a.completedAt = some t ∧ t + ph * nsPerHour < now) := by
  unfold ageCond
  cases hc : a.completedAt with
  | none => simp
  | some t => simp

theorem gcStep_fst_deletions (pe : Bool) (jn : List String) (ph now : Int)
    (s : GCState) (a : PipelineActivity) :
    (gcStep pe jn ph now s a).1.deletions = s.deletions ++ stepMarks pe jn ph now a := by
  by_cases hage : ageCond ph now a = true
  · simp [gcStep, stepMarks, hage]
  · rw [Bool.not_eq_true] at hage
    cases hb : atoi a.build <;>
      cases pe <;> by_cases hj : a.pipeline ∈ jn <;>
        simp [gcStep, stepMarks, hage, hb, orphanPass, hj]

theorem stepMarks_reasons (pe : Bool) (jn : List String) (ph now : Int)
    (a : PipelineActivity) :
    ∀ d ∈ stepMarks pe jn ph now a,
      d.2 = Reason.ageExpired ∨ (pe = false ∧ d.2 = Reason.orphaned) := by
  intro d hd
  by_cases hage : ageCond ph now a = true
  · simp [stepMarks, gcStep, hage] at hd
    rw [hd]
    exact Or.inl rfl
  · rw [Bool.not_eq_true] at hage
    cases hb : atoi a.build <;>
      cases pe <;> by_cases hj : a.pipeline ∈ jn <;>
        simp [stepMarks, gcStep, hage, hb, orphanPass, hj] at hd <;>
          simp [hd]

theorem gcStep_err_shape (pe : Bool) (jn : List String) (ph now : Int)
    (s : GCState) (a : PipelineActivity) :
    ∀ e, (gcStep pe jn ph now s a).2 = some e → e = GCError.conversionError a.build := by
  intro e he
  by_cases hage : ageCond ph now a = true
  · simp [gcStep, hage] at he
  · rw [Bool.not_eq_true] at hage
    cases hb : atoi a.build
    · simp [gcStep, hage, hb] at he
      exact he.symm
    · simp [gcStep, hage, hb] at he

theorem gcStep_err_of_bad (pe : Bool) (jn : List String) (ph now : Int)
    (s : GCState) (a : PipelineActivity)
    (hage : ageCond ph now a = false) (hb : atoi a.build = none) :
    (gcStep pe jn ph now s a).2 = some (GCError.conversionError a.build) := by
  simp [gcStep, hage, hb]

theorem gcLoop1_reasons (pe : Bool) (jn : List String) (ph now : Int) :
    ∀ (acts : List PipelineActivity) (s : GCState) (d : String × Reason),
      d ∈ (gcLoop1 pe jn ph now s acts).1.deletions →
      d ∈ s.deletions ∨ d.2 = Reason.ageExpired ∨ (pe = false ∧ d.2 = Reason.orphaned) := by
  intro acts
  induction acts with
  | nil =>
    intro s d h
    simp only [gcLoop1] at h
    exact Or.inl h
  | cons a rest ih =>
    intro s d h
    rcases hstep : gcStep pe jn ph now s a with ⟨s1, e⟩
    have hdel : s1.deletions = s.deletions ++ stepMarks pe jn ph now a := by
      have hh := gcStep_fst_deletions pe jn ph now s a
      rw [hstep] at hh
      exact hh
    cases e with
    | some err =>
      simp only [gcLoop1, hstep] at h
      rw [hdel] at h
      rcases List.mem_append.mp h with h | h
      · exact Or.inl h
      · rcases stepMarks_reasons pe jn ph now a d h with h | h
        · exact Or.inr (Or.inl h)
        · exact Or.inr (Or.inr h)
    | none =>
      simp only [gcLoop1, hstep] at h
      rcases ih s1 d h with h | h | h
      · rw [hdel] at h
        rcases List.mem_append.mp h with h | h
        · exact Or.inl h
        · rcases stepMarks_reasons pe jn ph now a d h with h | h
          · exact Or.inr (Or.inl h)
          · exact Or.inr (Or.inr h)
      · exact Or.inr (Or.inl h)
      · exact Or.inr (Or.inr h)

theorem gcLoop1_err (pe : Bool) (jn : List String) (ph now : Int) :
    ∀ (acts : List PipelineActivity) (s : GCState),
      (∃ a ∈ acts, ageCond ph now a = false ∧ atoi a.build = none) →
      ∃ str, (gcLoop1 pe jn ph now s acts).2 = some (GCError.conversionError str) := by
  intro acts
  induction acts with
  | nil =>
    intro s h
    rcases h with ⟨a, ha, _⟩
    cases ha
  | cons a rest ih =>
    intro s h
    rcases hstep : gcStep pe jn ph now s a with ⟨s1, e⟩
    cases e with
    | some err =>
      have hsh : (gcStep pe jn ph now s a).2 = some err := by rw [hstep]
      have := gcStep_err_shape pe jn ph now s a err hsh
      subst this
      exact ⟨a.build, by simp [gcLoop1, hstep]⟩
    | none =>
      rcases h with ⟨w, hw, hwage, hwb⟩
      rcases List.mem_cons.mp hw with hwa | hwrest
      · subst hwa
        have := gcStep_err_of_bad pe jn ph now s w hwage hwb
        rw [hstep] at this
        cases this
      · simp only [gcLoop1, hstep]
        exact ih s1 ⟨w, hwrest, hwage, hwb⟩

theorem capGo_ok (p : String) (sorted : List Int) :
    ∀ (n i : Nat), i + n ≤ sorted.length →
      capGo p sorted n i =
        (((sorted.drop i).take n).map (fun b => (mkActivityName p b, Reason.overLimit)), none) := by
  intro n
  induction n with
  | zero => intro i h; simp [capGo]
  | succ n ih =>
    intro i h
    have hi : i < sorted.length := by omega
    have hg : sorted[i]? = some sorted[i] := List.getElem?_eq_getElem hi
    rw [List.drop_eq_getElem_cons hi]
    simp only [capGo, hg, ih (i + 1) (by omega), List.take_succ_cons, List.map_cons]

theorem capGroup_ok (p : String) (builds : List Int) (limit : Int) (hl : 0 ≤ limit) :
    capGroup p builds limit =
      (((sortInts builds).take ((sortInts builds).length - limit.toNat)).map
        (fun b => (mkActivityName p b, Reason.overLimit)), none) := by
  have hn : (((sortInts builds).length : Int) - limit).toNat
      = (sortInts builds).length - limit.toNat := by omega
  have h := capGo_ok p (sortInts builds) ((sortInts builds).length - limit.toNat) 0 (by omega)
  unfold capGroup
  rw [hn, h]
  simp

theorem capGo_reasons (p : String) (sorted : List Int) :
    ∀ (n i : Nat) (d : String × Reason), d ∈ (capGo p sorted n i).1 → d.2 = Reason.overLimit := by
  intro n
  induction n with
  | zero => intro i d h; simp [capGo] at h
  | succ n ih =>
    intro i d h
    cases hg : sorted[i]? with
    | none => simp [capGo, hg] at h
    | some b =>
      rcases hrec : capGo p sorted n (i + 1) with ⟨ds, e⟩
      simp only [capGo, hg, hrec] at h
      rcases List.mem_cons.mp h with h | h
      · rw [h]
      · exact ih (i + 1) d (by rw [hrec]; exact h)

theorem capGroup_reasons (p : String) (bs : List Int) (limit : Int) (d : String × Reason)
    (h : d ∈ (capGroup p bs limit).1) : d.2 = Reason.overLimit :=
  capGo_reasons p (sortInts bs) _ 0 d h

theorem gcLoop2_reasons (limit : Int) :
    ∀ (l : List (String × List Int)) (d : String × Reason),
      d ∈ (gcLoop2 limit l).1 → d.2 = Reason.overLimit := by
  intro l
  induction l with
  | nil => intro d h; simp [gcLoop2] at h
  | cons g rest ih =>
    intro d h
    rcases hc : capGroup g.1 g.2 limit with ⟨ds, e⟩
    have hds : ∀ d ∈ ds, d.2 = Reason.overLimit := by
      intro d hd
      exact capGroup_reasons g.1 g.2 limit d (by rw [hc]; exact hd)
    cases e with
    | some err =>
      simp only [gcLoop2, hc] at h
      exact hds d h
    | none =>
      rcases hrec : gcLoop2 limit rest with ⟨ds2, e2⟩
      simp only [gcLoop2, hc, hrec] at h
      rcases List.mem_append.mp h with h | h
      · exact hds d h
      · exact ih d (by rw [hrec]; exact h)

theorem gcLoop2_ok (limit : Int) (hl : 0 ≤ limit) :
    ∀ l : List (String × List Int),
      gcLoop2 limit l = (l.flatMap (fun g => (capGroup g.1 g.2 limit).1), none) := by
  intro l
  induction l with
  | nil => simp [gcLoop2]
  | cons g rest ih =>
    have hg := capGroup_ok g.1 g.2 limit hl
    simp only [gcLoop2, hg, ih, List.flatMap_cons]

/-! ### Claim theorems for the retention engine -/

/-- C1 (counterexample): with prow disabled, `knownJobs = ["a"]` and
`revisionLimit = 0`, the single record `app-1` (pipeline `c`, build `1`)
is deleted by the orphan pass and nevertheless enters the revision-cap
grouping, where it is deleted a second time as `c-1` — a record counted
and deleted by two criteria, contradicting the claimed exclusion. -/
theorem claim1_counterexample :
    gcRun false ["a"] 48 0 1000000000000000 (fun l => l)
      [⟨"app-1", "c", "1", none⟩] =
    ⟨[("app-1", Reason.orphaned), ("c-1", Reason.overLimit)], none⟩ := by
  decide

/-- C1 (amended): a record satisfying the age-expiry condition is handled
by `continue`: it is only marked `age-expired`, and contributes nothing to
the revision-cap grouping (nor to the orphan pass).  A record marked by
the orphan pass, however, is NOT excluded: its build is still appended to
the revision-cap grouping. -/
theorem claim1_amended (pe : Bool) (jn : List String) (ph now : Int)
    (s : GCState) (a : PipelineActivity) :
    (ageCond ph now a = true →
      (gcStep pe jn ph now s a).1.builds = s.builds ∧
      (gcStep pe jn ph now s a).1.deletions = s.deletions ++ [(a.name, Reason.ageExpired)]) ∧
    (∀ n : Int, ageCond ph now a = false → pe = false → a.pipeline ∉ jn →
      atoi a.build = some n →
      (gcStep pe jn ph now s a).1.deletions = s.deletions ++ [(a.name, Reason.orphaned)] ∧
      (gcStep pe jn ph now s a).1.builds = addBuild s.builds a.pipeline n) := by
  constructor
  · intro h
    simp [gcStep, h]
  · intro n h hpe hj hb
    subst hpe
    simp [gcStep, h, hb, orphanPass, hj]

/-- C1 (witness for the amended claim): an age-expired record leaves the
grouping untouched; an orphaned record with build `1` is orphan-marked and
still grouped. -/
theorem claim1_witness :
    ((gcStep false [] 48 1000000000000000 ⟨[], []⟩ ⟨"x-pr-1", "p", "1", some 0⟩).1.builds = [] ∧
     (gcStep false [] 48 1000000000000000 ⟨[], []⟩ ⟨"x-pr-1", "p", "1", some 0⟩).1.deletions =
       [("x-pr-1", Reason.ageExpired)]) ∧
    ((gcStep false [] 48 1000000000000000 ⟨[], []⟩ ⟨"app-1", "c", "1", none⟩).1.deletions =
       [("app-1", Reason.orphaned)] ∧
     (gcStep false [] 48 1000000000000000 ⟨[], []⟩ ⟨"app-1", "c", "1", none⟩).1.builds =
       [("c", [1])]) :=
  ⟨(claim1_amended false [] 48 1000000000000000 ⟨[], []⟩ ⟨"x-pr-1", "p", "1", some 0⟩).1
     (by decide),
   (claim1_amended false [] 48 1000000000000000 ⟨[], []⟩ ⟨"app-1", "c", "1", none⟩).2 1
     (by decide) rfl (by decide) (by decide)⟩

/-- C3 (counterexample): a single record whose build `"abc"` does not
parse but which satisfies the age-expiry condition is deleted by the age
pass and skipped by `continue` before `strconv.Atoi` runs — the call
succeeds, contradicting "hard error regardless of whether that record
would have been deleted by the age-expiry or orphan criteria". -/
theorem claim3_counterexample :
    gcRun true [] 48 5 1000000000000000 (fun l => l)
      [⟨"x-pr-1", "p", "abc", some 0⟩] =
    ⟨[("x-pr-1", Reason.ageExpired)], none⟩ := by
  decide

/-- C3 (amended): a record whose build fails integer conversion is a hard
error for the step that processes it unless the record is deleted by the
age-expiry pass, in which case the conversion is skipped entirely; in
particular a record deleted by the orphan pass still triggers the error. -/
theorem claim3_amended (pe : Bool) (jn : List String) (ph now : Int)
    (s : GCState) (a : PipelineActivity) :
    (ageCond ph now a = true →
      gcStep pe jn ph now s a =
        ({ s with deletions := s.deletions ++ [(a.name, Reason.ageExpired)] }, none)) ∧
    (ageCond ph now a = false → atoi a.build = none →
      (gcStep pe jn ph now s a).2 = some (GCError.conversionError a.build)) := by
  constructor
  · intro h
    simp [gcStep, h]
  · intro h hb
    simp [gcStep, h, hb]

/-- C3 (witness for the amended claim): an age-expired record with
unparseable build is skipped without error; a non-expired one errors. -/
theorem claim3_witness :
    gcStep true [] 48 1000000000000000 ⟨[], []⟩ ⟨"x-pr-1", "p", "abc", some 0⟩ =
      (⟨[("x-pr-1", Reason.ageExpired)], []⟩, none) ∧
    (gcStep true [] 48 1000000000000000 ⟨[], []⟩ ⟨"y", "p", "abc", none⟩).2 =
      some (GCError.conversionError "abc") :=
  ⟨(claim3_amended true [] 48 1000000000000000 ⟨[], []⟩ ⟨"x-pr-1", "p", "abc", some 0⟩).1
     (by decide),
   (claim3_amended true [] 48 1000000000000000 ⟨[], []⟩ ⟨"y", "p", "abc", none⟩).2
     (by decide) (by decide)⟩

/-- C5: for a record whose name contains `-pr-`, the first loop marks it
`age-expired` exactly when it has a `completedAt` timestamp `t` with
`t + prHours hours < now`; a record completed exactly `prHours` hours
before `now` is retained, and a record with no `completedAt` is never
touched by this pass. -/
theorem claim5_age_expiry (pe : Bool) (jn : List String) (ph now : Int)
    (a : PipelineActivity) (hpr : hasPRMarker a.name = true) :
    (((a.name, Reason.ageExpired) ∈ stepMarks pe jn ph now a) ↔
      ∃ t, a.completedAt = some t ∧ t + ph * nsPerHour < now) ∧
    (a.completedAt = some (now - ph * nsPerHour) →
      (a.name, Reason.ageExpired) ∉ stepMarks pe jn ph now a) ∧
    (a.completedAt = none →
      (a.name, Reason.ageExpired) ∉ stepMarks pe jn ph now a) := by
  have hmem : ((a.name, Reason.ageExpired) ∈ stepMarks pe jn ph now a) ↔
      ageCond ph now a = true := by
    cases hage : ageCond ph now a with
    | true => simp [stepMarks, gcStep, hage]
    | false =>
      cases hb : atoi a.build <;>
        cases pe <;> by_cases hj : a.pipeline ∈ jn <;>
          simp [stepMarks, gcStep, hage, hb, orphanPass, hj]
  have hiff : ageCond ph now a = true ↔
      ∃ t, a.completedAt = some t ∧ t + ph * nsPerHour < now := by
    rw [ageCond_iff]
    simp [hpr]
  refine ⟨hmem.trans hiff, ?_, ?_⟩
  · intro hc hmem'
    rcases (hmem.trans hiff).mp hmem' with ⟨t, ht, hlt⟩
    rw [hc] at ht
    injection ht with ht'
    omega
  · intro hc hmem'
    rcases (hmem.trans hiff).mp hmem' with ⟨t, ht, _⟩
    rw [hc] at ht
    cases ht

/-- C5 (witness): concrete instantiation of the age-expiry
characterisation with `prHours = 0`, `now = 0`, `completedAt = -1`. -/
theorem claim5_witness :
    ((("x-pr-1", Reason.ageExpired) ∈ stepMarks false [] 0 0 ⟨"x-pr-1", "p", "1", some (-1)⟩) ↔
      ∃ t, (some (-1) : Option Int) = some t ∧ t + 0 * nsPerHour < 0) ∧
    ((some (-1) : Option Int) = some ((0 : Int) - 0 * nsPerHour) →
      ("x-pr-1", Reason.ageExpired) ∉ stepMarks false [] 0 0 ⟨"x-pr-1", "p", "1", some (-1)⟩) ∧
    ((some (-1) : Option Int) = none →
      ("x-pr-1", Reason.ageExpired) ∉ stepMarks false [] 0 0 ⟨"x-pr-1", "p", "1", some (-1)⟩) :=
  claim5_age_expiry false [] 0 0 ⟨"x-pr-1", "p", "1", some (-1)⟩ (by decide)

/-- C6 (counterexample): with prow disabled, `knownJobs = ["a","b"]` and a
record whose pipeline `c` appears in no known job, the record satisfies
the age-expiry condition and is marked `age-expired` only — it is not
marked `orphaned`, contradicting "marked orphaned exactly when its
pipeline value appears in no entry of knownJobs". -/
theorem claim6_counterexample :
    gcRun false ["a", "b"] 48 5 1000000000000000 (fun l => l)
      [⟨"x-pr-7", "c", "3", some 0⟩] =
    ⟨[("x-pr-7", Reason.ageExpired)], none⟩ := by
  decide

/-- C6 (amended): when prow is disabled, a record NOT removed by the
age-expiry branch is marked `orphaned` exactly when its pipeline appears
in no entry of `knownJobs`; when prow is enabled, no record is ever marked
`orphaned`, regardless of `knownJobs`. -/
theorem claim6_amended (jn : List String) (ph limit now : Int)
    (ord : List (String × List Int) → List (String × List Int))
    (acts : List PipelineActivity) (a : PipelineActivity)
    (hage : ageCond ph now a = false) :
    (((a.name, Reason.orphaned) ∈ stepMarks false jn ph now a) ↔ a.pipeline ∉ jn) ∧
    (∀ d ∈ (gcRun true jn ph limit now ord acts).deletions, d.2 ≠ Reason.orphaned) := by
  constructor
  · cases hb : atoi a.build <;> by_cases hj : a.pipeline ∈ jn <;>
      simp [stepMarks, gcStep, hage, hb, orphanPass, hj]
  · intro d hd
    rcases hloop : gcLoop1 true jn ph now ⟨[], []⟩ acts with ⟨s1, e1⟩
    have hs1 : ∀ d ∈ s1.deletions, d.2 ≠ Reason.orphaned := by
      intro d hd1
      have := gcLoop1_reasons true jn ph now acts ⟨[], []⟩ d (by rw [hloop]; exact hd1)
      rcases this with h | h | h
      · cases h
      · rw [h]
        decide
      · cases h.1
    cases e1 with
    | some e =>
      have hd1 : d ∈ s1.deletions := by simpa [gcRun, hloop] using hd
      exact hs1 d hd1
    | none =>
      rcases hloop2 : gcLoop2 limit (ord s1.builds) with ⟨ds, e2⟩
      have hd1 : d ∈ s1.deletions ∨ d ∈ ds := by
        simpa [gcRun, hloop, hloop2] using hd
      rcases hd1 with h | h
      · exact hs1 d h
      · have := gcLoop2_reasons limit (ord s1.builds) d (by rw [hloop2]; exact h)
        rw [this]
        decide

/-- C6 (witness for the amended claim): pipeline `c` against known jobs
`["a","b"]` is orphan-marked; with prow enabled nothing is orphan-marked. -/
theorem claim6_witness :
    ((("app", Reason.orphaned) ∈ stepMarks false ["a", "b"] 48 0 ⟨"app", "c", "1", none⟩) ↔
      "c" ∉ ["a", "b"]) ∧
    (∀ d ∈ (gcRun true ["a", "b"] 48 5 0 (fun l => l)
        [⟨"app", "c", "1", none⟩]).deletions, d.2 ≠ Reason.orphaned) :=
  claim6_amended ["a", "b"] 48 5 0 (fun l => l) [⟨"app", "c", "1", none⟩]
    ⟨"app", "c", "1", none⟩ (by decide)

/-- C2 (counterexample): a snapshot with an age-expired record followed by
a record whose build `"abc"` does not parse: the call fails with the
conversion error, but the deletion of the first record has already taken
effect — the computation is not atomic and the output is not empty on
error. -/
theorem claim2_counterexample :
    gcRun true [] 48 5 1000000000000000 (fun l => l)
      [⟨"x-pr-1", "p", "7", some 0⟩, ⟨"y", "p", "abc", none⟩] =
    ⟨[("x-pr-1", Reason.ageExpired)], some (GCError.conversionError "abc")⟩ := by
  decide

/-- C2 (amended): if the snapshot contains a record whose build does not
parse and which is not removed by the age-expiry branch, the run fails
with a conversion error and the revision-cap pass contributes no
deletions; deletions issued by the age-expiry and orphan passes before the
failure, however, do take effect (they remain in the trace). -/
theorem claim2_amended (pe : Bool) (jn : List String) (ph limit now : Int)
    (ord : List (String × List Int) → List (String × List Int))
    (acts : List PipelineActivity)
    (hbad : ∃ a ∈ acts, ageCond ph now a = false ∧ atoi a.build = none) :
    (∃ str, (gcRun pe jn ph limit now ord acts).err = some (GCError.conversionError str)) ∧
    (∀ d ∈ (gcRun pe jn ph limit now ord acts).deletions, d.2 ≠ Reason.overLimit) := by
  rcases hloop : gcLoop1 pe jn ph now ⟨[], []⟩ acts with ⟨s1, e1⟩
  have herr := gcLoop1_err pe jn ph now acts ⟨[], []⟩ hbad
  rw [hloop] at herr
  rcases herr with ⟨str, hstr⟩
  simp only at hstr
  subst hstr
  constructor
  · exact ⟨str, by simp [gcRun, hloop]⟩
  · intro d hd
    have hd1 : d ∈ s1.deletions := by simpa [gcRun, hloop] using hd
    have := gcLoop1_reasons pe jn ph now acts ⟨[], []⟩ d (by rw [hloop]; exact hd1)
    rcases this with h | h | h
    · cases h
    · rw [h]
      decide
    · rw [h.2]
      decide

/-- C2 (witness for the amended claim): a one-record snapshot with
unparseable build `"zz"` yields a conversion error and no over-limit
deletion. -/
theorem claim2_witness :
    (∃ str, (gcRun true [] 48 5 0 (fun l => l)
        [⟨"z", "p", "zz", none⟩]).err = some (GCError.conversionError str)) ∧
    (∀ d ∈ (gcRun true [] 48 5 0 (fun l => l)
        [⟨"z", "p", "zz", none⟩]).deletions, d.2 ≠ Reason.overLimit) :=
  claim2_amended true [] 48 5 0 (fun l => l) [⟨"z", "p", "zz", none⟩] (by decide)

/-- C4: for any pipeline group, the revision-cap pass sorts the builds
ascending and marks exactly the first `count - revisionLimit` entries (in
sorted order) as `over-limit` — none when `count ≤ revisionLimit`, all of
them when `revisionLimit = 0` — and never panics when the limit is
non-negative. -/
theorem claim4_revision_cap (pipeline : String) (builds : List Int) (limit : Int)
    (hl : 0 ≤ limit) :
    capGroup pipeline builds limit =
      (((sortInts builds).take ((sortInts builds).length - limit.toNat)).map
        (fun b => (mkActivityName pipeline b, Reason.overLimit)), none) :=
  capGroup_ok pipeline builds limit hl

/-- C4 (witness): builds `[1..7]` with limit `5` mark exactly `1` and `2`;
with limit `10` none are marked. -/
theorem claim4_witness :
    capGroup "p" [1, 2, 3, 4, 5, 6, 7] 5 =
      ([("p-1", Reason.overLimit), ("p-2", Reason.overLimit)], none) ∧
    capGroup "p" [1, 2, 3, 4, 5, 6, 7] 10 = ([], none) :=
  ⟨(claim4_revision_cap "p" [1, 2, 3, 4, 5, 6, 7] 5 (by decide)).trans (by decide),
   (claim4_revision_cap "p" [1, 2, 3, 4, 5, 6, 7] 10 (by decide)).trans (by decide)⟩

/-- C10: whenever the revision history limit is non-negative, every index
read by the revision-cap loop is in bounds (the out-of-bounds branch is
unreachable, the loop never panics); the bound genuinely depends on the
precondition — with limit `-1` the loop bound exceeds the slice length and
the out-of-bounds read is taken. -/
theorem claim10_index_safety (pipeline : String) (builds : List Int) (limit : Int) :
    (0 ≤ limit → (capGroup pipeline builds limit).2 = none) ∧
    (capGroup "q" [5] (-1)).2 = some GCError.indexPanic := by
  constructor
  · intro hl
    rw [capGroup_ok pipeline builds limit hl]
  · decide

/-- C10 (witness): limit `2` on three builds is safe; limit `-1` panics. -/
theorem claim10_witness :
    (capGroup "p" [1, 2, 3] 2).2 = none ∧
    (capGroup "q" [5] (-1)).2 = some GCError.indexPanic :=
  ⟨(claim10_index_safety "p" [1, 2, 3] 2).1 (by decide),
   (claim10_index_safety "p" [1, 2, 3] 2).2⟩

theorem map_ext_char (f g : Char → Char) (h : ∀ c, f c = g c) (l : List Char) :
    l.map f = l.map g := by
  have hfg : f = g := funext h
  rw [hfg]

/-- C7: the deletion target name built by the revision-cap loop coincides
with the specification's description — the lowercase of
`pipeline ++ "-" ++ buildNumber` with every `/` and `_` replaced by `-`;
in particular pipeline `"Team/App_X"` with build `42` yields
`"team-app-x-42"`. -/
theorem claim7_name_derivation (pipeline : String) (b : Int) :
    mkActivityName pipeline b = specTargetName pipeline b ∧
    mkActivityName "Team/App_X" 42 = "team-app-x-42" := by
  constructor
  · unfold mkActivityName specTargetName lowerStr replaceChar
    simp only [toList_mk, List.map_map]
    exact congrArg String.mk (map_ext_char _ _ (by
      intro c
      by_cases h1 : c = '/'
      · subst h1
        decide
      · by_cases h2 : c = '_'
        · subst h2
          decide
        · simp [Function.comp, h1, h2]) _)
  · decide

/-- C9 (counterexample): with identical inputs (records, knownJobs,
prHours, revisionLimit, clock reading), two runs that observe the Go map's
pipeline groups in different iteration orders produce plans listing the
over-limit deletions in different orders — the listing order is not
determined by the inputs. -/
theorem claim9_counterexample :
    gcRun true [] 48 0 0 (fun l => l)
      [⟨"a1", "a", "1", none⟩, ⟨"b1", "b", "1", none⟩] ≠
    gcRun true [] 48 0 0 List.reverse
      [⟨"a1", "a", "1", none⟩, ⟨"b1", "b", "1", none⟩] := by
  decide

/-- C9 (amended): with a non-negative revision limit, the engine is
deterministic up to the plan's listing order: for fixed inputs and any two
(permutation) iteration orders of the pipeline-group map, the two runs
produce the same multiset of deletions and the same error outcome; only
the relative order of the revision-cap deletions may differ. -/
theorem claim9_amended (pe : Bool) (jn : List String) (ph limit now : Int)
    (o1 o2 : List (String × List Int) → List (String × List Int))
    (h1 : ∀ l, (o1 l).Perm l) (h2 : ∀ l, (o2 l).Perm l) (hl : 0 ≤ limit)
    (acts : List PipelineActivity) :
    ((gcRun pe jn ph limit now o1 acts).deletions).Perm
      ((gcRun pe jn ph limit now o2 acts).deletions) ∧
    (gcRun pe jn ph limit now o1 acts).err = (gcRun pe jn ph limit now o2 acts).err := by
  rcases hloop : gcLoop1 pe jn ph now ⟨[], []⟩ acts with ⟨s1, e1⟩
  cases e1 with
  | some e =>
    simp only [gcRun, hloop]
    exact ⟨List.Perm.refl _, trivial⟩
  | none =>
    have hA := gcLoop2_ok limit hl (o1 s1.builds)
    have hB := gcLoop2_ok limit hl (o2 s1.builds)
    simp only [gcRun, hloop, hA, hB]
    refine ⟨List.Perm.append_left _ ?_, trivial⟩
    exact ((h1 s1.builds).flatMap_right _).trans ((h2 s1.builds).flatMap_right _).symm

/-- C9 (witness for the amended claim): the identity and reversal
iteration orders give permuted plans with equal error outcome. -/
theorem claim9_witness :
    ((gcRun true [] 48 0 0 (fun l => l)
        [⟨"a1", "a", "1", none⟩, ⟨"b1", "b", "1", none⟩]).deletions).Perm
      ((gcRun true [] 48 0 0 List.reverse
        [⟨"a1", "a", "1", none⟩, ⟨"b1", "b", "1", none⟩]).deletions) ∧
    (gcRun true [] 48 0 0 (fun l => l)
        [⟨"a1", "a", "1", none⟩, ⟨"b1", "b", "1", none⟩]).err =
      (gcRun true [] 48 0 0 List.reverse
        [⟨"a1", "a", "1", none⟩, ⟨"b1", "b", "1", none⟩]).err :=
  claim9_amended true [] 48 0 0 (fun l => l) List.reverse
    (fun l => List.Perm.refl l) (fun l => List.reverse_perm l) (by decide)
    [⟨"a1", "a", "1", none⟩, ⟨"b1", "b", "1", none⟩]

end Jx

namespace Prow

/-! ### Lemmas about the ref-set parser -/

theorem splitPair_encode (k v : List Char) (hk : ':' ∉ k) :
    splitPair (k ++ ':' :: v) = some (k, v) := by
  induction k with
  | nil => simp [splitPair]
  | cons c cs ih =>
    have hc : c ≠ ':' := by
      intro h
      exact hk (by rw [h]; exact List.mem_cons_self ':' cs)
    have hk' : ':' ∉ cs := fun h => hk (List.mem_cons_of_mem _ h)
    simp [splitPair, hc, ih hk']

theorem splitOnChar_not_mem (c : Char) (p : List Char) (hp : c ∉ p) :
    splitOnChar c p = [p] := by
  induction p with
  | nil => rfl
  | cons x xs ih =>
    have hx : x ≠ c := by
      intro h
      exact hp (by rw [h]; exact List.mem_cons_self c xs)
    have hxs : c ∉ xs := fun h => hp (List.mem_cons_of_mem _ h)
    simp [splitOnChar, ih hxs, hx]

theorem splitOnChar_ne_nil (c : Char) (l : List Char) : splitOnChar c l ≠ [] := by
  cases l with
  | nil => simp [splitOnChar]
  | cons x xs =>
    simp only [splitOnChar]
    rcases h : splitOnChar c xs with _ | ⟨h1, t⟩
    · simp
    · by_cases hx : x = c <;> simp [hx]

theorem splitOnChar_append (c : Char) (p rest : List Char) (hp : c ∉ p) :
    splitOnChar c (p ++ c :: rest) = p :: splitOnChar c rest := by
  induction p with
  | nil =>
    rcases h : splitOnChar c rest with _ | ⟨h1, t⟩
    · exact absurd h (splitOnChar_ne_nil c rest)
    · simp [splitOnChar, h]
  | cons x xs ih =>
    have hx : x ≠ c := by
      intro h
      exact hp (by rw [h]; exact List.mem_cons_self c xs)
    have hxs : c ∉ xs := fun h => hp (List.mem_cons_of_mem _ h)
    rw [List.cons_append]
    simp only [splitOnChar]
    rw [ih hxs]
    simp [hx]

theorem splitOnChar_joinWith (c : Char) :
    ∀ (qs : List (List Char)) (q : List Char), c ∉ q → (∀ p ∈ qs, c ∉ p) →
      splitOnChar c (joinWith c (q :: qs)) = q :: qs := by
  intro qs
  induction qs with
  | nil =>
    intro q hq _
    simp [joinWith, splitOnChar_not_mem c q hq]
  | cons r rs ih =>
    intro q hq hqs
    simp only [joinWith]
    rw [splitOnChar_append c _ _ hq]
    rw [ih r (hqs r (List.mem_cons_self r rs)) (fun p hp => hqs p (List.mem_cons_of_mem _ hp))]

theorem parsePairs_encode :
    ∀ merges : List (String × String), (∀ kv ∈ merges, ':' ∉ kv.1.toList) →
      parsePairs (merges.map encodePair) = some merges := by
  intro merges
  induction merges with
  | nil => intro _; simp [parsePairs]
  | cons kv rest ih =>
    intro h
    have h1 : ':' ∉ kv.1.toList := h kv (List.mem_cons_self kv rest)
    have hrest := ih (fun x hx => h x (List.mem_cons_of_mem _ hx))
    have hsp : splitPair (encodePair kv) = some (kv.1.toList, kv.2.toList) :=
      splitPair_encode _ _ h1
    simp only [List.map_cons, parsePairs, hsp, hrest]
    rfl

theorem encodePair_ne_nil (kv : String × String) : encodePair kv ≠ [] := by
  simp [encodePair]

theorem joinWith_cons_ne_nil (c : Char) (p : List Char) (ps : List (List Char))
    (hp : p ≠ []) : joinWith c (p :: ps) ≠ [] := by
  cases ps with
  | nil => simpa [joinWith] using hp
  | cons q qs => simp [joinWith]

/-- C8: modelled from the spec — encoding a base pair and `N ≥ 0` merge
pairs (keys and values free of `:` and `,`) as `"k0:v0,k1:v1,...,kN:vN"`
and parsing the result succeeds and returns exactly the base branch, base
sha and the `N` merge pairs. -/
theorem claim8_roundtrip (k0 v0 : String) (merges : List (String × String))
    (hfree : ∀ kv ∈ (k0, v0) :: merges,
      ':' ∉ kv.1.toList ∧ ',' ∉ kv.1.toList ∧ ':' ∉ kv.2.toList ∧ ',' ∉ kv.2.toList) :
    parsePullRefs (encodeRefs (k0, v0) merges) = Except.ok ⟨k0, v0, merges⟩ := by
  have hbase := hfree (k0, v0) (List.mem_cons_self _ _)
  have hparts : ∀ p ∈ ((k0, v0) :: merges).map encodePair, ',' ∉ p := by
    intro p hp
    rcases List.mem_map.mp hp with ⟨kv, hkv, rfl⟩
    rcases hfree kv hkv with ⟨_, hk, _, hv⟩
    intro hmem
    rcases List.mem_append.mp hmem with h | h
    · exact hk h
    · rcases List.mem_cons.mp h with h | h
      · exact absurd h (by decide)
      · exact hv h
  have hTL : (encodeRefs (k0, v0) merges).toList
      = joinWith ',' (((k0, v0) :: merges).map encodePair) := rfl
  have hne : joinWith ',' (((k0, v0) :: merges).map encodePair) ≠ [] := by
    rw [List.map_cons]
    exact joinWith_cons_ne_nil ',' _ _ (encodePair_ne_nil (k0, v0))
  have hsplit : splitOnChar ',' (joinWith ',' (((k0, v0) :: merges).map encodePair))
      = encodePair (k0, v0) :: merges.map encodePair := by
    rw [List.map_cons]
    exact splitOnChar_joinWith ',' (merges.map encodePair) (encodePair (k0, v0))
      (hparts _ (List.mem_cons_self _ _))
      (fun p hp => hparts p (List.mem_cons_of_mem _ hp))
  have hpair : splitPair (encodePair (k0, v0)) = some (k0.toList, v0.toList) :=
    splitPair_encode _ _ hbase.1
  have hmerge : parsePairs (merges.map encodePair) = some merges :=
    parsePairs_encode merges (fun kv h => (hfree kv (List.mem_cons_of_mem _ h)).1)
  unfold parsePullRefs
  rw [hTL, if_neg hne, hsplit]
  simp only [hpair, hmerge]
  rfl

/-- C8 (witness): the test vector `"master:aaa,12:bbb,34:ccc"` (shape of
`TestParsePullRefs`) round-trips to base `master`/`aaa` and the two merge
pairs. -/
theorem claim8_witness :
    parsePullRefs (encodeRefs ("master", "aaa") [("12", "bbb"), ("34", "ccc")]) =
      Except.ok ⟨"master", "aaa", [("12", "bbb"), ("34", "ccc")]⟩ :=
  claim8_roundtrip "master" "aaa" [("12", "bbb"), ("34", "ccc")] (by decide)

end Prow
